import Mathlib

/-!
Verification of the post-hoc TDP inference core demonstrated by the OHBM 2023
notebooks.  The notebooks call the calibration and bound operations of the
`sanssouci` and `pyperm` packages; those implementations live outside this
repository, so every operation below is modelled from the description, in the specification, of the Calibration Engine and the Bound Engine.  P-values,
thresholds and pivotal statistics are rational numbers; errors are surfaced
through `Except`.
-/

namespace Posthoc

/-- Modelled from the spec: the `InvalidInputError` raised by the public
operations on malformed input; the implementation raising it is not in this
repository. -/
structure InvalidInputError where
  message : String
  deriving Repr, DecidableEq

/-- Modelled from the spec: `ss.linear_template`, the linear template family
`t_k(lam) = lam * k / m` evaluated at ranks `k = 1, ..., ksize`; its
implementation is not in this repository. -/
def linear_template (lam : ℚ) (ksize m : ℕ) : List ℚ :=
  (List.range ksize).map (fun k : ℕ => lam * ((k : ℚ) + 1) / (m : ℚ))

/-- Modelled from the spec: `threshold_curve(lambda_star, m, linear)`, the
linear template evaluated at every rank `k = 1, ..., m`. -/
def threshold_curve (lam : ℚ) (m : ℕ) : List ℚ :=
  linear_template lam m m

/-- Number of p-values of `S` at or above the threshold `t`. -/
def exceedCount (S : List ℚ) (t : ℚ) : ℕ :=
  S.countP (fun p => decide (t ≤ p))

/-- Accumulator form of the false-positive bound: running minimum of
`exceedCount S t + k` over the remaining thresholds, with `k` the 0-based
rank of the threshold `t`. -/
def maxFPaux (S : List ℚ) : List ℚ → ℕ → ℕ → ℕ
  | [], _, acc => acc
  | t :: rest, k, acc => maxFPaux S rest (k + 1) (min acc (exceedCount S t + k))

/-- Modelled from the spec: the closed-testing false-positive bound of
`ss.max_fp` for a subset `S` of p-values under a threshold curve `thr`
(implementation not in this repository): the minimum of `|S|` and, over the
1-based ranks `k`, of `(number of p in S with p >= thr[k-1]) + k - 1`. -/
def maxFPcore (S thr : List ℚ) : ℕ :=
  maxFPaux S thr 0 S.length

/-- Modelled from the spec: `max_false_positives(pvalues_subset, thr)`
rejects a subset larger than the hypothesis set and otherwise returns the
false-positive bound. -/
def max_false_positives (S thr : List ℚ) : Except InvalidInputError ℕ :=
  if thr.length < S.length then .error ⟨"subset larger than the hypothesis set"⟩
  else .ok (maxFPcore S thr)

/-- Minimum of a list of rationals, `0` on the empty list. -/
def minRat : List ℚ → ℚ
  | [] => 0
  | x :: xs => xs.foldl min x

/-- Modelled from the spec: the pivotal statistic of one resample row under a
template family with inverse functions `tinv k` for rank `k`: sort the row
ascending and take the minimum over ranks `k` of `tinv k` applied to the
`k`-th smallest p-value. -/
def pivotalStat (tinv : ℕ → ℚ → ℚ) (row : List ℚ) : ℚ :=
  minRat ((List.range row.length).map
    (fun k => tinv (k + 1) ((List.insertionSort (· ≤ ·) row).getD k 0)))

/-- Modelled from the spec: `compute_pivotal_statistics` maps every resample
row to its pivotal statistic. -/
def compute_pivotal_statistics (tinv : ℕ → ℚ → ℚ) (rows : List (List ℚ)) : List ℚ :=
  rows.map (pivotalStat tinv)

/-- The inverse of the linear template at rank `k`: `p * m / k`. -/
def linear_tinv (m : ℕ) (k : ℕ) (p : ℚ) : ℚ :=
  p * m / k

/-- Linear interpolation between the order statistics of the sorted list `s`
at fractional index `h` (the numpy default quantile convention). -/
def interp (s : List ℚ) (h : ℚ) : ℚ :=
  s.getD ⌊h⌋₊ 0 +
    (h - (⌊h⌋₊ : ℚ)) * (s.getD (⌊h⌋₊ + 1) (s.getD ⌊h⌋₊ 0) - s.getD ⌊h⌋₊ 0)

/-- Modelled from the spec: the `alpha`-quantile of `xs` by linear
interpolation between order statistics (`np.quantile` with its default
interpolation; implementation not in this repository). -/
def quantile (xs : List ℚ) (alpha : ℚ) : ℚ :=
  interp (List.insertionSort (· ≤ ·) xs) (alpha * (xs.length - 1))

/-- Modelled from the spec: `calibrate(pivotal_stats, alpha)` requires
`alpha` in the open interval `(0,1)` and returns the `alpha`-quantile of the
pivotal statistics. -/
def calibrate (stats : List ℚ) (alpha : ℚ) : Except InvalidInputError ℚ :=
  if 0 < alpha ∧ alpha < 1 then .ok (quantile stats alpha)
  else .error ⟨"alpha outside the open unit interval"⟩

/-- Modelled from the spec: `pr.get_bounds(pvalues_subset, lambda_star, m)`
derives the linear threshold curve internally, applies the false-positive
bound, and returns the tuple `(FP, TP, FDP, TDP)`; it fails on an empty
subset (division by zero in FDP and TDP). -/
def get_bounds (S : List ℚ) (lam : ℚ) (m : ℕ) :
    Except InvalidInputError (ℕ × ℤ × ℚ × ℚ) :=
  if S.length = 0 then .error ⟨"empty subset"⟩
  else .ok (maxFPcore S (threshold_curve lam m),
    (S.length : ℤ) - (maxFPcore S (threshold_curve lam m) : ℤ),
    (maxFPcore S (threshold_curve lam m) : ℚ) / (S.length : ℚ),
    1 - (maxFPcore S (threshold_curve lam m) : ℚ) / (S.length : ℚ))

/-- One incremental update of the per-rank exceedance counters when the
p-value `p` joins the subset; the counters stay aligned with `thr`. -/
def bump (p : ℚ) : List ℚ → List ℕ → List ℕ
  | t :: ts, c :: cs => (if t ≤ p then c + 1 else c) :: bump p ts cs
  | _, _ => []

/-- Running minimum of `c + k` over the counters, mirroring `maxFPaux`. -/
def minCounts : List ℕ → ℕ → ℕ → ℕ
  | [], _, acc => acc
  | c :: cs, k, acc => minCounts cs (k + 1) (min acc (c + k))

/-- Incremental envelope: consume the p-values one by one, update the
exceedance counters in place and emit the bound for each prefix. -/
def curveAux (thr : List ℚ) : List ℚ → List ℕ → ℕ → List ℕ
  | [], _, _ => []
  | p :: rest, counts, i =>
    let counts2 := bump p thr counts
    minCounts counts2 0 (i + 1) :: curveAux thr rest counts2 (i + 1)

/-- Modelled from the spec: `ss.curve_max_fp` / `confidence_envelope`
(implementation not in this repository), computed incrementally by reusing
the exceedance counters across prefixes instead of recomputing each prefix
from scratch. -/
def curve_max_fp (S thr : List ℚ) : List ℕ :=
  curveAux thr S (thr.map (fun _ => 0)) 0

/-! ### Supporting lemmas about the false-positive bound -/

theorem maxFPaux_le_acc (S : List ℚ) (thr : List ℚ) (k acc : ℕ) :
    maxFPaux S thr k acc ≤ acc := by
  induction thr generalizing k acc with
  | nil => simp [maxFPaux]
  | cons t rest ih =>
    exact le_trans (ih (k + 1) (min acc (exceedCount S t + k))) (min_le_left _ _)

theorem maxFPcore_le_length (S thr : List ℚ) : maxFPcore S thr ≤ S.length :=
  maxFPaux_le_acc S thr 0 S.length

theorem maxFPaux_mono_sublist {S1 S2 : List ℚ} (h : S1.Sublist S2) (thr : List ℚ) :
    ∀ (k : ℕ) {acc1 acc2 : ℕ}, acc1 ≤ acc2 →
      maxFPaux S1 thr k acc1 ≤ maxFPaux S2 thr k acc2 := by
  induction thr with
  | nil => intro k acc1 acc2 hacc; simpa [maxFPaux] using hacc
  | cons t rest ih =>
    intro k acc1 acc2 hacc
    simp only [maxFPaux]
    exact ih (k + 1) (min_le_min hacc (Nat.add_le_add_right (List.Sublist.countP_le _ h) k))

theorem exceedCount_perm {S1 S2 : List ℚ} (h : S1.Perm S2) (t : ℚ) :
    exceedCount S1 t = exceedCount S2 t :=
  h.countP_eq _

theorem maxFPaux_perm {S1 S2 : List ℚ} (h : S1.Perm S2) (thr : List ℚ) (k acc : ℕ) :
    maxFPaux S1 thr k acc = maxFPaux S2 thr k acc := by
  induction thr generalizing k acc with
  | nil => rfl
  | cons t rest ih =>
    simp only [maxFPaux]
    rw [exceedCount_perm h t]
    exact ih _ _

theorem maxFPcore_mono_subperm {S1 S2 : List ℚ} (h : S1.Subperm S2) (thr : List ℚ) :
    maxFPcore S1 thr ≤ maxFPcore S2 thr := by
  obtain ⟨l, hperm, hsub⟩ := h
  have h1 : maxFPcore S1 thr = maxFPaux l thr 0 l.length := by
    unfold maxFPcore
    rw [maxFPaux_perm hperm.symm, hperm.length_eq]
  rw [h1]
  exact maxFPaux_mono_sublist hsub thr 0 hsub.length_le

theorem exceedCount_anti {t1 t2 : ℚ} (S : List ℚ) (h : t1 ≤ t2) :
    exceedCount S t2 ≤ exceedCount S t1 := by
  apply List.countP_mono_left
  intro x _ hx
  simp only [decide_eq_true_eq] at hx ⊢
  exact le_trans h hx

theorem maxFPaux_anti_thr {thrA thrB : List ℚ} (S : List ℚ)
    (h : List.Forall₂ (· ≤ ·) thrA thrB) :
    ∀ (k : ℕ) {acc1 acc2 : ℕ}, acc1 ≤ acc2 →
      maxFPaux S thrB k acc1 ≤ maxFPaux S thrA k acc2 := by
  induction h with
  | nil => intro k acc1 acc2 hacc; simpa [maxFPaux] using hacc
  | @cons a b thrA' thrB' hab hrest ih =>
    intro k acc1 acc2 hacc
    simp only [maxFPaux]
    exact ih (k + 1) (min_le_min hacc (Nat.add_le_add_right (exceedCount_anti S hab) k))

theorem linear_template_length (lam : ℚ) (ksize m : ℕ) :
    (linear_template lam ksize m).length = ksize := by
  simp only [linear_template, List.length_map, List.length_range]

theorem linear_template_getD (lam : ℚ) (ksize m k : ℕ) (hk : k < ksize) :
    (linear_template lam ksize m).getD k 0 = lam * (k + 1) / m := by
  simp only [linear_template, List.getD_eq_getElem?_getD, List.getElem?_map,
    List.getElem?_range hk, Option.map_some', Option.getD_some]

/-! ### Claim theorems: threshold curve, edge cases, monotonicity in the subset -/

/-- C2: for every `lambda_star` and every `m ≥ 1`, `threshold_curve` returns a
sequence of `m` scalars whose entry of index `k - 1` equals
`lambda_star * k / m` exactly, for every rank `k = 1..m` (linear template). -/
theorem C2_threshold_curve_linear (lam : ℚ) (m : ℕ) (_hm : 1 ≤ m) :
    (threshold_curve lam m).length = m ∧
    ∀ k : ℕ, 1 ≤ k → k ≤ m →
      (threshold_curve lam m).getD (k - 1) 0 = lam * (k : ℚ) / (m : ℚ) := by
  refine ⟨linear_template_length lam m m, ?_⟩
  intro k hk1 hkm
  have hlt : k - 1 < m := lt_of_lt_of_le (Nat.sub_lt hk1 one_pos) hkm
  rw [threshold_curve, linear_template_getD lam m m (k - 1) hlt]
  have hc : ((k - 1 : ℕ) : ℚ) + 1 = (k : ℚ) := by
    rw [Nat.cast_sub hk1]
    push_cast
    ring
  rw [hc]

/-- Witness for C2 at `lambda_star = 1/2`, `m = 4`, rank `k = 2`. -/
theorem C2_threshold_curve_linear_witness :
    (threshold_curve (1/2) 4).length = 4 ∧
    (threshold_curve (1/2) 4).getD 1 0 = (1/2) * (2 : ℚ) / (4 : ℚ) :=
  ⟨(C2_threshold_curve_linear (1/2) 4 (by decide)).1,
   (C2_threshold_curve_linear (1/2) 4 (by decide)).2 2 (by decide) (by decide)⟩

/-- C8: `max_false_positives` returns 0 on the empty subset under every
threshold curve, and returns an `InvalidInputError` (no truncated result) for
every subset larger than the hypothesis set. -/
theorem C8_max_fp_empty_and_oversized :
    (∀ thr : List ℚ, max_false_positives [] thr = .ok 0) ∧
    (∀ S thr : List ℚ, thr.length < S.length →
      ∃ e, max_false_positives S thr = .error e) := by
  constructor
  · intro thr
    have h0 : maxFPcore [] thr = 0 := Nat.le_zero.mp (maxFPaux_le_acc [] thr 0 0)
    simp [max_false_positives, h0]
  · intro S thr hlt
    exact ⟨⟨"subset larger than the hypothesis set"⟩, by
      rw [max_false_positives, if_pos hlt]⟩

/-- Witness for C8: the empty subset under a one-entry curve, and a
two-element subset against a one-entry curve. -/
theorem C8_max_fp_empty_and_oversized_witness :
    max_false_positives [] [(1 : ℚ)/10] = .ok 0 ∧
    ∃ e, max_false_positives [(1 : ℚ)/2, (1 : ℚ)/3] [(1 : ℚ)/10] = .error e :=
  ⟨C8_max_fp_empty_and_oversized.1 [(1 : ℚ)/10],
   C8_max_fp_empty_and_oversized.2 [(1 : ℚ)/2, (1 : ℚ)/3] [(1 : ℚ)/10] (by decide)⟩

/-- C5: the false-positive bound is non-decreasing under inclusion of
p-value subsets: if `S1` is contained in `S2` (as a sub-multiset of
p-values) then the bound for `S1` is at most the bound for `S2`. -/
theorem C5_max_fp_monotone_inclusion (S1 S2 thr : List ℚ)
    (hsub : S1.Subperm S2) (hlen : S2.length ≤ thr.length) :
    ∃ b1 b2, max_false_positives S1 thr = .ok b1 ∧
      max_false_positives S2 thr = .ok b2 ∧ b1 ≤ b2 := by
  have h1 : S1.length ≤ S2.length := hsub.length_le
  refine ⟨maxFPcore S1 thr, maxFPcore S2 thr, ?_, ?_, maxFPcore_mono_subperm hsub thr⟩
  · simp [max_false_positives, Nat.not_lt.mpr (le_trans h1 hlen)]
  · simp [max_false_positives, Nat.not_lt.mpr hlen]

/-- Witness for C5 with `S1 = [1/100]` inside `S2 = [1/2, 1/100]`. -/
theorem C5_max_fp_monotone_inclusion_witness :
    ∃ b1 b2, max_false_positives [(1 : ℚ)/100] [(1 : ℚ)/10, (2 : ℚ)/10] = .ok b1 ∧
      max_false_positives [(1 : ℚ)/2, (1 : ℚ)/100] [(1 : ℚ)/10, (2 : ℚ)/10] = .ok b2 ∧
      b1 ≤ b2 :=
  C5_max_fp_monotone_inclusion [(1 : ℚ)/100] [(1 : ℚ)/2, (1 : ℚ)/100]
    [(1 : ℚ)/10, (2 : ℚ)/10]
    ⟨[(1 : ℚ)/100], List.Perm.refl _, List.Sublist.cons _ (List.Sublist.refl _)⟩
    (by decide)

/-- C10: the false-positive bound lies between 0 and the subset size, and
consequently `get_bounds` returns a nonnegative TP bound and FDP and TDP
bounds inside `[0, 1]` on every non-empty subset. -/
theorem C10_bounds_within_range (S thr : List ℚ) (lam : ℚ) (m : ℕ)
    (_hSm : S.length ≤ m) :
    maxFPcore S thr ≤ S.length ∧
    ∀ fp tp fdp tdp, get_bounds S lam m = .ok (fp, tp, fdp, tdp) →
      fp ≤ S.length ∧ 0 ≤ tp ∧ 0 ≤ fdp ∧ fdp ≤ 1 ∧ 0 ≤ tdp ∧ tdp ≤ 1 := by
  refine ⟨maxFPcore_le_length S thr, ?_⟩
  intro fp tp fdp tdp hok
  by_cases h0 : S.length = 0
  · rw [get_bounds, if_pos h0] at hok
    exact absurd hok (by simp)
  · rw [get_bounds, if_neg h0] at hok
    have hpos : 0 < S.length := Nat.pos_of_ne_zero h0
    have hqpos : (0 : ℚ) < (S.length : ℚ) := by exact_mod_cast hpos
    have hle := maxFPcore_le_length S (threshold_curve lam m)
    simp only [Except.ok.injEq, Prod.mk.injEq] at hok
    obtain ⟨rfl, rfl, rfl, rfl⟩ := hok
    refine ⟨hle, ?_, ?_, ?_, ?_, ?_⟩
    · have : (maxFPcore S (threshold_curve lam m) : ℤ) ≤ (S.length : ℤ) := by
        exact_mod_cast hle
      omega
    · exact div_nonneg (Nat.cast_nonneg _) (le_of_lt hqpos)
    · exact (div_le_one hqpos).mpr (by exact_mod_cast hle)
    · have hfdp : (maxFPcore S (threshold_curve lam m) : ℚ) / (S.length : ℚ) ≤ 1 :=
        (div_le_one hqpos).mpr (by exact_mod_cast hle)
      linarith
    · have hfdp0 : 0 ≤ (maxFPcore S (threshold_curve lam m) : ℚ) / (S.length : ℚ) :=
        div_nonneg (Nat.cast_nonneg _) (le_of_lt hqpos)
      linarith

/-- Witness for C10 at `S = [1/100, 1/2]`, `thr = [1/10]`, `m = 2`. -/
theorem C10_bounds_within_range_witness :
    maxFPcore [(1 : ℚ)/100, (1 : ℚ)/2] [(1 : ℚ)/10] ≤ 2 ∧
    ∀ fp tp fdp tdp,
      get_bounds [(1 : ℚ)/100, (1 : ℚ)/2] (1/2) 2 = .ok (fp, tp, fdp, tdp) →
      fp ≤ 2 ∧ 0 ≤ tp ∧ 0 ≤ fdp ∧ fdp ≤ 1 ∧ 0 ≤ tdp ∧ tdp ≤ 1 := by
  have h := C10_bounds_within_range [(1 : ℚ)/100, (1 : ℚ)/2] [(1 : ℚ)/10] (1/2) 2
    (by decide)
  exact h

/-- C1: on every non-empty subset, `get_bounds` derives the linear threshold
curve internally, applies the false-positive bound `FP`, and returns the
tuple `(FP, TP, FDP, TDP)` with `TP = |S| - FP`, `FDP = FP / |S|` and
`TDP = 1 - FDP`, whence `FP + TP = |S|`; on the empty subset it fails with
an `InvalidInputError`. -/
theorem C1_get_bounds_composition (S : List ℚ) (lam : ℚ) (m : ℕ) :
    (S ≠ [] → ∃ fp : ℕ,
      fp = maxFPcore S (threshold_curve lam m) ∧
      get_bounds S lam m =
        .ok (fp, (S.length : ℤ) - (fp : ℤ), (fp : ℚ) / (S.length : ℚ),
          1 - (fp : ℚ) / (S.length : ℚ)) ∧
      (fp : ℤ) + ((S.length : ℤ) - (fp : ℤ)) = (S.length : ℤ)) ∧
    (S = [] → ∃ e, get_bounds S lam m = .error e) := by
  constructor
  · intro hne
    refine ⟨maxFPcore S (threshold_curve lam m), rfl, ?_, by ring⟩
    have h0 : ¬ S.length = 0 := by
      simpa [List.length_eq_zero] using hne
    rw [get_bounds, if_neg h0]
  · intro he
    subst he
    exact ⟨⟨"empty subset"⟩, rfl⟩

/-- Witness for C1 at the one-element subset `[1/2]`. -/
theorem C1_get_bounds_composition_witness :
    get_bounds [(1 : ℚ)/2] (1/2) 2 = .ok (1, 0, 1, 0) := by
  obtain ⟨fp, hfp, hok, _⟩ :=
    (C1_get_bounds_composition [(1 : ℚ)/2] (1/2) 2).1 (by decide)
  rw [hok]
  subst hfp
  have hthr : threshold_curve (1/2) 2 = [(1 : ℚ)/4, (1 : ℚ)/2] := by
    norm_num [threshold_curve, linear_template, List.range_succ]
  rw [hthr]
  norm_num [maxFPcore, maxFPaux, exceedCount, List.countP_cons, List.countP_nil]

/-! ### Supporting lemmas: list access, minima, the incremental envelope -/

theorem getD_of_lt (l : List ℚ) (n : ℕ) (d : ℚ) (h : n < l.length) :
    l.getD n d = l[n] := by
  rw [List.getD_eq_getElem?_getD, List.getElem?_eq_getElem h, Option.getD_some]

theorem getD_of_ge (l : List ℚ) (n : ℕ) (d : ℚ) (h : l.length ≤ n) :
    l.getD n d = d := by
  rw [List.getD_eq_getElem?_getD, List.getElem?_eq_none h, Option.getD_none]

theorem sorted_getD_le {s : List ℚ} (hs : s.Sorted (· ≤ ·)) {a b : ℕ}
    (hab : a ≤ b) (hb : b < s.length) (d1 d2 : ℚ) :
    s.getD a d1 ≤ s.getD b d2 := by
  have ha : a < s.length := lt_of_le_of_lt hab hb
  rw [getD_of_lt _ _ _ ha, getD_of_lt _ _ _ hb]
  have := hs.rel_get_of_le (a := ⟨a, ha⟩) (b := ⟨b, hb⟩) hab
  simpa using this

theorem foldl_min_le_init (xs : List ℚ) : ∀ x : ℚ, xs.foldl min x ≤ x := by
  induction xs with
  | nil => intro x; exact le_refl x
  | cons y ys ih => intro x; exact le_trans (ih (min x y)) (min_le_left x y)

theorem foldl_min_le_mem (xs : List ℚ) :
    ∀ (x y : ℚ), y ∈ xs → xs.foldl min x ≤ y := by
  induction xs with
  | nil => intro x y hy; exact absurd hy (List.not_mem_nil y)
  | cons z zs ih =>
    intro x y hy
    rcases List.mem_cons.mp hy with h | h
    · subst h
      exact le_trans (foldl_min_le_init zs (min x y)) (min_le_right x y)
    · exact ih (min x z) y h

theorem minRat_le (xs : List ℚ) (y : ℚ) (hy : y ∈ xs) : minRat xs ≤ y := by
  cases xs with
  | nil => exact absurd hy (List.not_mem_nil y)
  | cons x rest =>
    rcases List.mem_cons.mp hy with h | h
    · subst h
      exact foldl_min_le_init rest y
    · exact foldl_min_le_mem rest x y h

theorem foldl_min_mem (xs : List ℚ) :
    ∀ x : ℚ, xs.foldl min x = x ∨ xs.foldl min x ∈ xs := by
  induction xs with
  | nil => intro x; exact Or.inl rfl
  | cons y ys ih =>
    intro x
    rcases ih (min x y) with h | h
    · rcases min_choice x y with hc | hc
      · left
        rw [List.foldl_cons, h, hc]
      · right
        rw [List.foldl_cons, h, hc]
        exact List.mem_cons_self y ys
    · right
      exact List.mem_cons_of_mem y h

theorem minRat_mem (xs : List ℚ) (hne : xs ≠ []) : minRat xs ∈ xs := by
  cases xs with
  | nil => exact absurd rfl hne
  | cons x rest =>
    rcases foldl_min_mem rest x with h | h
    · rw [minRat, h]
      exact List.mem_cons_self x rest
    · exact List.mem_cons_of_mem x h

theorem exceedCount_append (P : List ℚ) (p t : ℚ) :
    exceedCount (P ++ [p]) t = exceedCount P t + (if t ≤ p then 1 else 0) := by
  simp [exceedCount, List.countP_append, List.countP_cons]

theorem bump_map (P : List ℚ) (p : ℚ) (thr : List ℚ) :
    bump p thr (thr.map (fun t => exceedCount P t)) =
      thr.map (fun t => exceedCount (P ++ [p]) t) := by
  induction thr with
  | nil => rfl
  | cons t ts ih =>
    simp only [List.map_cons, bump, ih]
    congr 1
    rw [exceedCount_append]
    by_cases h : t ≤ p
    · simp [h]
    · simp [h]

theorem minCounts_eq_maxFPaux (P : List ℚ) (thr : List ℚ) :
    ∀ (k acc : ℕ),
      minCounts (thr.map (fun t => exceedCount P t)) k acc = maxFPaux P thr k acc := by
  induction thr with
  | nil => intro k acc; rfl
  | cons t ts ih =>
    intro k acc
    simp only [List.map_cons, minCounts, maxFPaux]
    exact ih _ _

theorem curveAux_recompute (thr : List ℚ) :
    ∀ (rest P : List ℚ),
      curveAux thr rest (thr.map (fun t => exceedCount P t)) P.length =
        (List.range rest.length).map
          (fun j => maxFPcore (P ++ rest.take (j + 1)) thr) := by
  intro rest
  induction rest with
  | nil => intro P; rfl
  | cons p rs ih =>
    intro P
    simp only [curveAux, List.length_cons]
    rw [bump_map]
    have hplen : (P ++ [p]).length = P.length + 1 := by simp
    have hhead :
        minCounts (thr.map (fun t => exceedCount (P ++ [p]) t)) 0 (P.length + 1) =
          maxFPcore (P ++ [p]) thr := by
      rw [minCounts_eq_maxFPaux]
      unfold maxFPcore
      rw [hplen]
    have htail := ih (P ++ [p])
    rw [hplen] at htail
    rw [hhead, htail, List.range_succ_eq_map, List.map_cons, List.map_map]
    congr 1
    apply List.map_congr_left
    intro j _
    simp only [Function.comp_apply]
    rw [List.append_assoc, List.singleton_append]
    simp [List.take_succ_cons, Nat.succ_eq_add_one]

/-- C7: on a sorted p-value sequence, the incrementally computed confidence
envelope coincides, entry by entry, with recomputing the false-positive
bound from scratch on each prefix of the sorted p-values. -/
theorem C7_confidence_envelope (S thr : List ℚ) (_hsorted : S.Sorted (· ≤ ·)) :
    curve_max_fp S thr =
      (List.range S.length).map (fun i => maxFPcore (S.take (i + 1)) thr) := by
  have h := curveAux_recompute thr S []
  simp only [List.length_nil, List.nil_append] at h
  have hzero : (thr.map (fun _ => (0 : ℕ))) = thr.map (fun t => exceedCount [] t) := by
    apply List.map_congr_left
    intro t _
    rfl
  rw [curve_max_fp, hzero]
  exact h

/-- Witness for C7 on the sorted subset `[1/4, 1/2]` with curve `[1/10]`. -/
theorem C7_confidence_envelope_witness :
    curve_max_fp [(1 : ℚ)/4, (1 : ℚ)/2] [(1 : ℚ)/10] =
      (List.range 2).map
        (fun i => maxFPcore ([(1 : ℚ)/4, (1 : ℚ)/2].take (i + 1)) [(1 : ℚ)/10]) :=
  C7_confidence_envelope [(1 : ℚ)/4, (1 : ℚ)/2] [(1 : ℚ)/10]
    (by norm_num [List.sorted_cons])

/-- C3: `compute_pivotal_statistics` returns one scalar per resample row, and
the `b`-th scalar is the minimum over ranks `k = 1..m` of the rank-`k`
template inverse evaluated at the `k`-th smallest p-value of row `b`
(characterised against any ascending-sorted rearrangement of the row). -/
theorem C3_pivotal_statistics (tinv : ℕ → ℚ → ℚ) (rows : List (List ℚ)) (m : ℕ)
    (hm : 1 ≤ m) (hlen : ∀ row ∈ rows, row.length = m)
    (_hrange : ∀ row ∈ rows, ∀ p ∈ row, 0 ≤ p ∧ p ≤ 1) :
    (compute_pivotal_statistics tinv rows).length = rows.length ∧
    ∀ b, b < rows.length → ∀ s : List ℚ,
      s.Perm (rows.getD b []) → s.Sorted (· ≤ ·) →
      ((∀ k, k < m →
          (compute_pivotal_statistics tinv rows).getD b 0 ≤ tinv (k + 1) (s.getD k 0)) ∧
       (∃ k, k < m ∧
          (compute_pivotal_statistics tinv rows).getD b 0 = tinv (k + 1) (s.getD k 0))) := by
  refine ⟨by simp [compute_pivotal_statistics], ?_⟩
  intro b hb s hperm hsorted
  have hrowmem : rows.getD b [] ∈ rows := by
    rw [List.getD_eq_getElem?_getD, List.getElem?_eq_getElem hb, Option.getD_some]
    exact List.getElem_mem hb
  have hrlen : (rows.getD b []).length = m := hlen _ hrowmem
  have hentry : (compute_pivotal_statistics tinv rows).getD b 0
      = pivotalStat tinv (rows.getD b []) := by
    have hb2 : b < (compute_pivotal_statistics tinv rows).length := by
      simpa [compute_pivotal_statistics] using hb
    simp [compute_pivotal_statistics, List.getD_eq_getElem?_getD,
      List.getElem?_eq_getElem hb, List.getElem?_eq_getElem hb2]
  have hseq : s = List.insertionSort (· ≤ ·) (rows.getD b []) :=
    List.eq_of_perm_of_sorted
      (hperm.trans (List.perm_insertionSort _ _).symm) hsorted
      (List.sorted_insertionSort _ _)
  have hlist : pivotalStat tinv (rows.getD b [])
      = minRat ((List.range m).map (fun k => tinv (k + 1) (s.getD k 0))) := by
    simp only [pivotalStat]
    rw [hrlen, ← hseq]
  rw [hentry, hlist]
  constructor
  · intro k hk
    apply minRat_le
    exact List.mem_map.mpr ⟨k, List.mem_range.mpr hk, rfl⟩
  · have hne : ((List.range m).map (fun k => tinv (k + 1) (s.getD k 0))) ≠ [] := by
      apply List.ne_nil_of_length_pos
      simpa using hm
    obtain ⟨k, hkmem, hkeq⟩ := List.mem_map.mp (minRat_mem _ hne)
    exact ⟨k, List.mem_range.mp hkmem, hkeq.symm⟩

/-- Witness for C3 on the single-row matrix `[[1/2, 1/4]]` with the linear
template inverses for `m = 2`, checked against the sorted row `[1/4, 1/2]`. -/
theorem C3_pivotal_statistics_witness :
    (compute_pivotal_statistics (linear_tinv 2) [[(1 : ℚ)/2, (1 : ℚ)/4]]).length = 1 ∧
    ((∀ k, k < 2 →
        (compute_pivotal_statistics (linear_tinv 2) [[(1 : ℚ)/2, (1 : ℚ)/4]]).getD 0 0 ≤
          linear_tinv 2 (k + 1) ([(1 : ℚ)/4, (1 : ℚ)/2].getD k 0)) ∧
     (∃ k, k < 2 ∧
        (compute_pivotal_statistics (linear_tinv 2) [[(1 : ℚ)/2, (1 : ℚ)/4]]).getD 0 0 =
          linear_tinv 2 (k + 1) ([(1 : ℚ)/4, (1 : ℚ)/2].getD k 0))) := by
  have h := C3_pivotal_statistics (linear_tinv 2) [[(1 : ℚ)/2, (1 : ℚ)/4]] 2
    (by norm_num)
    (by
      intro row hrow
      simp only [List.mem_singleton] at hrow
      subst hrow
      rfl)
    (by
      intro row hrow
      simp only [List.mem_singleton] at hrow
      subst hrow
      intro p hp
      rcases List.mem_cons.mp hp with h1 | h1
      · subst h1
        norm_num
      · simp only [List.mem_singleton] at h1
        subst h1
        norm_num)
  refine ⟨h.1, ?_⟩
  exact h.2 0 (by norm_num) [(1 : ℚ)/4, (1 : ℚ)/2]
    (List.Perm.swap ((1 : ℚ)/2) ((1 : ℚ)/4) [])
    (by norm_num [List.sorted_cons])

/-- C9: when row 0 of the resample matrix equals the observed p-values, the
pivotal statistic of the observed row is among the `B` returned statistics, so
the empirical distribution used by `calibrate` puts mass at least `1/B` at
or below the observed value (no zero-probability artifact for the observed
data). -/
theorem C9_observed_row_mass (tinv : ℕ → ℚ → ℚ) (row0 : List ℚ)
    (rest : List (List ℚ)) :
    pivotalStat tinv row0 ∈ compute_pivotal_statistics tinv (row0 :: rest) ∧
    1 ≤ (compute_pivotal_statistics tinv (row0 :: rest)).countP
        (fun x => decide (x ≤ pivotalStat tinv row0)) ∧
    (1 : ℚ) / (((row0 :: rest).length : ℕ) : ℚ) ≤
      (((compute_pivotal_statistics tinv (row0 :: rest)).countP
          (fun x => decide (x ≤ pivotalStat tinv row0)) : ℕ) : ℚ) /
        (((row0 :: rest).length : ℕ) : ℚ) := by
  have hcount : 1 ≤ (compute_pivotal_statistics tinv (row0 :: rest)).countP
      (fun x => decide (x ≤ pivotalStat tinv row0)) := by
    rw [compute_pivotal_statistics, List.map_cons, List.countP_cons]
    simp
  refine ⟨?_, hcount, ?_⟩
  · rw [compute_pivotal_statistics, List.map_cons]
    exact List.mem_cons_self _ _
  · have hc : (0 : ℚ) < (((row0 :: rest).length : ℕ) : ℚ) := by
      have : 0 < (row0 :: rest).length := Nat.succ_pos _
      exact_mod_cast this
    exact (div_le_div_iff_of_pos_right hc).mpr (by exact_mod_cast hcount)

/-! ### Supporting lemmas: linear interpolation between order statistics -/

theorem getD_snd_ge {s : List ℚ} (hs : s.Sorted (· ≤ ·)) (i : ℕ) :
    s.getD i 0 ≤ s.getD (i + 1) (s.getD i 0) := by
  by_cases h1 : i + 1 < s.length
  · exact sorted_getD_le hs (Nat.le_succ i) h1 (0 : ℚ) (s.getD i 0)
  · rw [getD_of_ge _ _ _ (Nat.le_of_not_lt h1)]

theorem le_interp {s : List ℚ} (hs : s.Sorted (· ≤ ·)) {h : ℚ} (h0 : 0 ≤ h) :
    s.getD ⌊h⌋₊ 0 ≤ interp s h := by
  have hg : 0 ≤ h - (⌊h⌋₊ : ℚ) := sub_nonneg.mpr (Nat.floor_le h0)
  have hD : 0 ≤ s.getD (⌊h⌋₊ + 1) (s.getD ⌊h⌋₊ 0) - s.getD ⌊h⌋₊ 0 :=
    sub_nonneg.mpr (getD_snd_ge hs ⌊h⌋₊)
  have hprod := mul_nonneg hg hD
  simp only [interp]
  linarith

theorem interp_le {s : List ℚ} (hs : s.Sorted (· ≤ ·)) (h : ℚ) :
    interp s h ≤ s.getD (⌊h⌋₊ + 1) (s.getD ⌊h⌋₊ 0) := by
  have hg1 : 0 ≤ 1 - (h - (⌊h⌋₊ : ℚ)) := by
    have := Nat.lt_floor_add_one h
    linarith
  have hD : 0 ≤ s.getD (⌊h⌋₊ + 1) (s.getD ⌊h⌋₊ 0) - s.getD ⌊h⌋₊ 0 :=
    sub_nonneg.mpr (getD_snd_ge hs ⌊h⌋₊)
  have hprod := mul_nonneg hg1 hD
  rw [sub_mul, one_mul] at hprod
  simp only [interp]
  linarith

theorem nat_floor_lt_length {s : List ℚ} {h : ℚ} (hlen : 1 ≤ s.length)
    (hub : h ≤ (s.length : ℚ) - 1) : ⌊h⌋₊ < s.length := by
  have hcast : ((s.length : ℚ) - 1) = ((s.length - 1 : ℕ) : ℚ) := by
    rw [Nat.cast_sub hlen]
    norm_num
  have h1 : ⌊h⌋₊ ≤ ⌊((s.length - 1 : ℕ) : ℚ)⌋₊ := Nat.floor_mono (hcast ▸ hub)
  rw [Nat.floor_natCast] at h1
  omega

theorem interp_mono {s : List ℚ} (hs : s.Sorted (· ≤ ·)) {h1 h2 : ℚ}
    (h0 : 0 ≤ h1) (h12 : h1 ≤ h2) (hlen : 1 ≤ s.length)
    (hub : h2 ≤ (s.length : ℚ) - 1) :
    interp s h1 ≤ interp s h2 := by
  have h02 : 0 ≤ h2 := le_trans h0 h12
  have hi12 : ⌊h1⌋₊ ≤ ⌊h2⌋₊ := Nat.floor_mono h12
  have hi2 : ⌊h2⌋₊ < s.length := nat_floor_lt_length hlen hub
  rcases eq_or_lt_of_le hi12 with heq | hlt
  · have hD : 0 ≤ s.getD (⌊h1⌋₊ + 1) (s.getD ⌊h1⌋₊ 0) - s.getD ⌊h1⌋₊ 0 :=
      sub_nonneg.mpr (getD_snd_ge hs ⌊h1⌋₊)
    have hstep := mul_le_mul_of_nonneg_right
      (sub_le_sub_right h12 ((⌊h1⌋₊ : ℚ))) hD
    simp only [interp, ← heq]
    linarith
  · have hi1lt : ⌊h1⌋₊ + 1 ≤ ⌊h2⌋₊ := hlt
    have hi1in : ⌊h1⌋₊ + 1 < s.length := lt_of_le_of_lt hi1lt hi2
    calc interp s h1 ≤ s.getD (⌊h1⌋₊ + 1) (s.getD ⌊h1⌋₊ 0) := interp_le hs h1
      _ = s.getD (⌊h1⌋₊ + 1) 0 := by
          rw [getD_of_lt _ _ _ hi1in, getD_of_lt _ _ _ hi1in]
      _ ≤ s.getD ⌊h2⌋₊ 0 := sorted_getD_le hs hi1lt hi2 0 0
      _ ≤ interp s h2 := le_interp hs h02

theorem quantile_mono (stats : List ℚ) {a b : ℚ} (ha : 0 < a) (hab : a ≤ b)
    (hb : b < 1) : quantile stats a ≤ quantile stats b := by
  rcases Nat.eq_zero_or_pos stats.length with h0 | hpos
  · have hnil : stats = [] := List.eq_nil_of_length_eq_zero h0
    subst hnil
    norm_num [quantile, interp, List.getD_nil]
  · have hsorted : (List.insertionSort (· ≤ ·) stats).Sorted (· ≤ ·) :=
      List.sorted_insertionSort _ _
    have hslen : (List.insertionSort (· ≤ ·) stats).length = stats.length :=
      List.length_insertionSort _ _
    have hq : (0 : ℚ) ≤ (stats.length : ℚ) - 1 := by
      have h1 : (1 : ℚ) ≤ (stats.length : ℚ) := by exact_mod_cast hpos
      linarith
    apply interp_mono hsorted
    · exact mul_nonneg ha.le hq
    · exact mul_le_mul_of_nonneg_right hab hq
    · omega
    · rw [hslen]
      calc b * ((stats.length : ℚ) - 1) ≤ 1 * ((stats.length : ℚ) - 1) :=
            mul_le_mul_of_nonneg_right hb.le hq
        _ = (stats.length : ℚ) - 1 := one_mul _

theorem threshold_curve_forall2 {la lb : ℚ} (hl : la ≤ lb) (m : ℕ) :
    List.Forall₂ (· ≤ ·) (threshold_curve la m) (threshold_curve lb m) := by
  unfold threshold_curve linear_template
  rw [List.forall₂_map_left_iff, List.forall₂_map_right_iff]
  apply List.forall₂_same.mpr
  intro k hk
  have hkm : k < m := List.mem_range.mp hk
  have hm : (0 : ℚ) < (m : ℚ) := by
    have : 0 < m := by omega
    exact_mod_cast this
  exact (div_le_div_iff_of_pos_right hm).mpr
    (mul_le_mul_of_nonneg_right hl (by positivity))

theorem threshold_curve_entry_mono {la lb : ℚ} (hl : la ≤ lb) (m k : ℕ) :
    (threshold_curve la m).getD k 0 ≤ (threshold_curve lb m).getD k 0 := by
  by_cases hk : k < m
  · rw [threshold_curve, threshold_curve, linear_template_getD _ _ _ _ hk,
      linear_template_getD _ _ _ _ hk]
    have hm : (0 : ℚ) < (m : ℚ) := by
      have : 0 < m := by omega
      exact_mod_cast this
    exact (div_le_div_iff_of_pos_right hm).mpr
      (mul_le_mul_of_nonneg_right hl (by positivity))
  · have hk2 : m ≤ k := Nat.le_of_not_lt hk
    rw [threshold_curve, threshold_curve,
      getD_of_ge _ _ _ (by rw [linear_template_length]; exact hk2),
      getD_of_ge _ _ _ (by rw [linear_template_length]; exact hk2)]

/-! ### Claim theorems: calibration -/

/-- C4: for `alpha` in `(0,1)`, `calibrate` returns the `alpha`-quantile of
the pivotal statistics computed by linear interpolation between the order
statistics (characterised against any ascending-sorted rearrangement of the
data); for `alpha` outside `(0,1)` the precondition is violated and an
`InvalidInputError` is returned. -/
theorem C4_calibrate_quantile (stats : List ℚ) (alpha : ℚ) :
    (0 < alpha → alpha < 1 →
      ∀ s : List ℚ, s.Perm stats → s.Sorted (· ≤ ·) →
        calibrate stats alpha =
          .ok (interp s (alpha * ((stats.length : ℚ) - 1)))) ∧
    (¬ (0 < alpha ∧ alpha < 1) → ∃ e, calibrate stats alpha = .error e) := by
  constructor
  · intro h1 h2 s hperm hsorted
    have hseq : s = List.insertionSort (· ≤ ·) stats :=
      List.eq_of_perm_of_sorted (hperm.trans (List.perm_insertionSort _ _).symm)
        hsorted (List.sorted_insertionSort _ _)
    rw [calibrate, if_pos ⟨h1, h2⟩, quantile, ← hseq]
  · intro hnot
    refine ⟨⟨"alpha outside the open unit interval"⟩, ?_⟩
    rw [calibrate, if_neg hnot]

/-- Witness for C4 at `stats = [1, 3]`, `alpha = 1/2`: the interpolated
median is 2. -/
theorem C4_calibrate_quantile_witness :
    calibrate [(1 : ℚ), 3] (1/2) = .ok 2 := by
  have h := (C4_calibrate_quantile [(1 : ℚ), 3] (1/2)).1 (by norm_num) (by norm_num)
    [(1 : ℚ), 3] (List.Perm.refl _) (by norm_num [List.sorted_cons])
  rw [h]
  have hfl : ⌊(1 : ℚ)/2⌋₊ = 0 := by
    rw [Nat.floor_eq_zero]
    norm_num
  norm_num [interp, hfl]

/-- C6: for a fixed sequence of pivotal statistics, a smaller confidence
level gives a smaller calibrated lambda, entrywise smaller threshold
curves, and a larger (or equal) false-positive bound on any fixed subset. -/
theorem C6_alpha_monotone_tradeoff (stats S : List ℚ) (m : ℕ) {a b : ℚ}
    (hab : a < b) (ha : 0 < a) (hb : b < 1) :
    ∃ qa qb, calibrate stats a = .ok qa ∧ calibrate stats b = .ok qb ∧
      qa ≤ qb ∧
      (∀ k : ℕ, (threshold_curve qa m).getD k 0 ≤ (threshold_curve qb m).getD k 0) ∧
      maxFPcore S (threshold_curve qb m) ≤ maxFPcore S (threshold_curve qa m) := by
  have ha1 : a < 1 := lt_trans hab hb
  have hb0 : 0 < b := lt_trans ha hab
  have hq : quantile stats a ≤ quantile stats b := quantile_mono stats ha hab.le hb
  refine ⟨quantile stats a, quantile stats b, ?_, ?_, hq, ?_, ?_⟩
  · rw [calibrate, if_pos ⟨ha, ha1⟩]
  · rw [calibrate, if_pos ⟨hb0, hb⟩]
  · intro k
    exact threshold_curve_entry_mono hq m k
  · exact maxFPaux_anti_thr S (threshold_curve_forall2 hq m) 0 (le_refl S.length)

/-- Witness for C6 with statistics `[1, 2]`, subset `[1/10]`, `m = 2`,
confidence levels 1/4 and 1/2. -/
theorem C6_alpha_monotone_tradeoff_witness :
    ∃ qa qb, calibrate [(1 : ℚ), 2] (1/4) = .ok qa ∧
      calibrate [(1 : ℚ), 2] (1/2) = .ok qb ∧ qa ≤ qb ∧
      (∀ k : ℕ, (threshold_curve qa 2).getD k 0 ≤ (threshold_curve qb 2).getD k 0) ∧
      maxFPcore [(1 : ℚ)/10] (threshold_curve qb 2) ≤
        maxFPcore [(1 : ℚ)/10] (threshold_curve qa 2) :=
  C6_alpha_monotone_tradeoff [(1 : ℚ), 2] [(1 : ℚ)/10] 2
    (by norm_num) (by norm_num) (by norm_num)

end Posthoc
